import Mathlib

/-
  Verification development for the bencode codec in
  src/spate-bencode/src/bencode.rs.

  The byte stream is modelled as a `List Nat` (each element one octet).
  The decoder is a shallow embedding of the `Decoder` impl: recursion is
  indexed by a fuel parameter (a model artifact; `Value.decode` supplies
  `2 * input.length + 1`, which is never exhausted — exhaustion is reported
  by the dedicated `outOfFuel` result constructors, distinct from every
  source-level outcome).  Rust panics (out-of-bounds slicing / usize
  underflow) are modelled by the `panic` result constructor.
-/

/-! ## Token constants (bencode.rs lines 8..12) -/

def DELIM_TOKEN : Nat := 58     -- b':'
def INTEGER_TOKEN : Nat := 105  -- b'i'
def LIST_TOKEN : Nat := 108     -- b'l'
def DICT_TOKEN : Nat := 100     -- b'd'
def END_TOKEN : Nat := 101      -- b'e'

/-! ## The Value tree (bencode.rs lines 15..20)

`Vec<Value>` is modelled by `ValueList`, and `BTreeMap<Value, Value>` by
`EntryList`: the ordered sequence of (key, value) entries of the map,
kept sorted by `insertSorted` below. -/

mutual
inductive Value where
  | bytes : List Nat → Value
  | integer : Int → Value
  | list : ValueList → Value
  | dict : EntryList → Value
deriving DecidableEq
inductive ValueList where
  | nil : ValueList
  | cons : Value → ValueList → ValueList
deriving DecidableEq
inductive EntryList where
  | nil : EntryList
  | cons : Value → Value → EntryList → EntryList
deriving DecidableEq
end

/-! ## The derived total order on Value (`#[derive(PartialOrd, Ord)]`)

Rust's derive compares the variant tag first (declaration order:
Bytes < Integer < List < Dict) and then the payloads lexicographically;
`Vec` and `BTreeMap` compare as sequences (for the map: its entries in
key order, each entry as a (key, value) pair). -/

def compareNat (a b : Nat) : Ordering :=
  if a < b then .lt else if b < a then .gt else .eq

def compareInt (a b : Int) : Ordering :=
  if a < b then .lt else if b < a then .gt else .eq

def compareBytes : List Nat → List Nat → Ordering
  | [], [] => .eq
  | [], _ :: _ => .lt
  | _ :: _, [] => .gt
  | a :: as_, b :: bs =>
    match compareNat a b with
    | .eq => compareBytes as_ bs
    | .lt => .lt
    | .gt => .gt

mutual
def compareValue : Value → Value → Ordering
  | .bytes a, .bytes b => compareBytes a b
  | .bytes _, .integer _ => .lt
  | .bytes _, .list _ => .lt
  | .bytes _, .dict _ => .lt
  | .integer _, .bytes _ => .gt
  | .integer a, .integer b => compareInt a b
  | .integer _, .list _ => .lt
  | .integer _, .dict _ => .lt
  | .list _, .bytes _ => .gt
  | .list _, .integer _ => .gt
  | .list a, .list b => compareVL a b
  | .list _, .dict _ => .lt
  | .dict _, .bytes _ => .gt
  | .dict _, .integer _ => .gt
  | .dict _, .list _ => .gt
  | .dict a, .dict b => compareEL a b
def compareVL : ValueList → ValueList → Ordering
  | .nil, .nil => .eq
  | .nil, .cons _ _ => .lt
  | .cons _ _, .nil => .gt
  | .cons a as_, .cons b bs =>
    match compareValue a b with
    | .eq => compareVL as_ bs
    | .lt => .lt
    | .gt => .gt
def compareEL : EntryList → EntryList → Ordering
  | .nil, .nil => .eq
  | .nil, .cons _ _ _ => .lt
  | .cons _ _ _, .nil => .gt
  | .cons k v es, .cons k' v' es' =>
    match compareValue k k' with
    | .eq =>
      match compareValue v v' with
      | .eq => compareEL es es'
      | .lt => .lt
      | .gt => .gt
    | .lt => .lt
    | .gt => .gt
end

/-! ## The BTreeMap model

`insertSorted` models `BTreeMap::insert` on the ordered entry sequence:
if the key is already present its value is updated (the old key object is
kept, per the BTreeMap documentation); otherwise the new entry is placed
at its ordered position. -/

def insertSorted (k v : Value) : EntryList → EntryList
  | .nil => .cons k v .nil
  | .cons k' v' es =>
    match compareValue k k' with
    | .lt => .cons k v (.cons k' v' es)
    | .eq => .cons k' v es
    | .gt => .cons k' v' (insertSorted k v es)

/-- `BTreeMap::get` with a `Bytes` key: the value of the entry whose key
equals `Value.bytes kb` (extensionally; the model scans the sequence). -/
def lookupE : EntryList → List Nat → Option Value
  | .nil, _ => none
  | .cons k v es, kb =>
    match compareValue (.bytes kb) k with
    | .eq => some v
    | _ => lookupE es kb

def appendE : EntryList → EntryList → EntryList
  | .nil, es => es
  | .cons k v m, es => .cons k v (appendE m es)

/-- Fold the entry sequence `es` into the map `m` by successive inserts —
exactly what the dict-decoding loop does with the entries it reads. -/
def insertAllE : EntryList → EntryList → EntryList
  | m, .nil => m
  | m, .cons k v es => insertAllE (insertSorted k v m) es

/-! ## ASCII decimal numerals -/

def isDigit (b : Nat) : Bool := decide (48 ≤ b) && decide (b ≤ 57)

def allDigits (l : List Nat) : Bool := l.all isDigit

/-- Numeric value of a digit string (as `str::parse` computes it). -/
def digitsToVal (l : List Nat) : Nat :=
  l.foldl (fun a d => a * 10 + (d - 48)) 0

/-- Decimal digits of `n`, most significant first (as `to_string` prints
them: no leading zeros, `0` prints as "0").  The auxiliary fuel makes the
recursion structural; `n + 1` steps always suffice. -/
def natDigitsAux : Nat → Nat → List Nat
  | _, 0 => []
  | n, fuel + 1 =>
    if n < 10 then [48 + n] else natDigitsAux (n / 10) fuel ++ [48 + n % 10]

def natDigits (n : Nat) : List Nat := natDigitsAux n (n + 1)

/-- `i64::to_string`: a '-' sign for negatives, then the decimal digits of
the absolute value. -/
def intDigits (i : Int) : List Nat :=
  if i < 0 then 45 :: natDigits i.natAbs else natDigits i.natAbs

/-- `str::parse::<i64>`: optional '+' or '-' sign, then at least one ASCII
decimal digit, value within the i64 range (otherwise overflow error).
Leading zeros are accepted, as is "-0".  Any other character fails
(bytes that are not valid UTF-8 reach the parser as replacement
characters via `from_utf8_lossy`, which also fail it). -/
def parseI64 (bs : List Nat) : Option Int :=
  if bs.head? = some 45 then
    if bs.tail ≠ [] ∧ allDigits bs.tail = true ∧ digitsToVal bs.tail ≤ 2 ^ 63 then
      some (-(digitsToVal bs.tail : Int))
    else none
  else
    let ds := if bs.head? = some 43 then bs.tail else bs
    if ds ≠ [] ∧ allDigits ds = true ∧ digitsToVal ds ≤ 2 ^ 63 - 1 then
      some (digitsToVal ds : Int)
    else none

/-- `str::parse::<usize>` on a 64-bit target: optional '+' sign, at least
one digit, value at most 2^64 - 1. -/
def parseUsize (bs : List Nat) : Option Nat :=
  let ds := if bs.head? = some 43 then bs.tail else bs
  if ds ≠ [] ∧ allDigits ds = true ∧ digitsToVal ds ≤ 2 ^ 64 - 1 then
    some (digitsToVal ds)
  else none

/-! ## Decode errors (bencode.rs lines 74..78) -/

/-- The five static strings passed to `DecodeError::DECODER`. -/
inductive Msg where
  | unknownToken        -- "Unknown token"
  | expectedToken       -- "Expected token"
  | parseIntegerFailed  -- "parse integer failed"
  | parseSizeFailed     -- "parse size failed"
  | dictKeyNotBytes     -- "Dict key must be a byte string"
deriving DecidableEq

/-- The only I/O error an in-memory stream produces: `read_exact` hitting
end of stream (`io::ErrorKind::UnexpectedEof`). -/
inductive IOError where
  | unexpectedEof
deriving DecidableEq

inductive DecodeError where
  | io : IOError → DecodeError        -- DecodeError::IO
  | decoder : Msg → DecodeError       -- DecodeError::DECODER
deriving DecidableEq

/-- Outcome of a decoding function: a value plus the unconsumed remainder
of the stream, an error, a Rust panic, or fuel exhaustion (model
artifact). -/
inductive DRes where
  | ok : Value → List Nat → DRes
  | err : DecodeError → DRes
  | panic : DRes
  | outOfFuel : DRes
deriving DecidableEq

inductive DResL where
  | ok : ValueList → List Nat → DResL
  | err : DecodeError → DResL
  | panic : DResL
  | outOfFuel : DResL
deriving DecidableEq

inductive DResE where
  | ok : EntryList → List Nat → DResE
  | err : DecodeError → DResE
  | panic : DResE
  | outOfFuel : DResE
deriving DecidableEq

/-! ## The decoder (bencode.rs lines 92..190) -/

/-- `AsyncBufReadExt::read_until`: all bytes up to and including the first
occurrence of the delimiter, or every remaining byte if the stream ends
first. -/
def readUntil (delim : Nat) : List Nat → List Nat
  | [] => []
  | b :: bs => if b = delim then [b] else b :: readUntil delim bs

/-- `Decoder::read_integer` (lines 119..131), entered after the caller
consumed the leading 'i'.  The source slices `int_str[..int_str.len() - 1]`
on the `from_utf8_lossy` string:
* if `read_until` read nothing (already at end of stream) the subtraction
  underflows / the slice is out of bounds — a panic;
* if the stream ended without an 'e' and the final byte is ≥ 0x80, the
  final character of the lossy string is multi-byte (either a genuine
  multi-byte character or the replacement character U+FFFD), so the slice
  boundary falls inside a character — a panic;
* otherwise the final byte (the 'e', or the final ASCII byte at EOF) is
  dropped and the interior is parsed.  Parsing the raw interior bytes is
  outcome-equivalent to parsing the lossy string: a parse can only succeed
  on ASCII sign/digit bytes, which `from_utf8_lossy` maps to themselves. -/
def read_integer (input : List Nat) : DRes :=
  let ret := readUntil END_TOKEN input
  let rest := input.drop ret.length
  match ret.getLast? with
  | none => DRes.panic
  | some lastByte =>
    if 128 ≤ lastByte then DRes.panic
    else
      match parseI64 ret.dropLast with
      | some n => DRes.ok (.integer n) rest
      | none => DRes.err (.decoder .parseIntegerFailed)

/-- `Decoder::read_bytes` (lines 133..149): read the length numeral up to
and including ':', parse it as usize, then `read_exact` that many bytes
(an `UnexpectedEof` I/O error if fewer are available).  The slicing
panic conditions are as in `read_integer`. -/
def read_bytes (input : List Nat) : DRes :=
  let buf := readUntil DELIM_TOKEN input
  let rest := input.drop buf.length
  match buf.getLast? with
  | none => DRes.panic
  | some lastByte =>
    if 128 ≤ lastByte then DRes.panic
    else
      match parseUsize buf.dropLast with
      | some len =>
        if rest.length < len then DRes.err (.io .unexpectedEof)
        else DRes.ok (.bytes (rest.take len)) (rest.drop len)
      | none => DRes.err (.decoder .parseSizeFailed)

/- `Decoder::read_anything` / `read_list` / `read_dict` (lines 100..190).
`read_list_body` and `read_dict_body` are the loop bodies of `read_list`
and `read_dict`, entered after the leading 'l' / 'd' was consumed; the
wrapping into `Value::List` / `Value::Dict` happens at the dispatch site.
In the source, `read_integer` consumes the leading 'i' itself; here the
dispatch site drops it before calling `read_integer`. -/
mutual
def read_anything : Nat → List Nat → DRes
  | 0, _ => DRes.outOfFuel
  | _ + 1, [] => DRes.err (.decoder .expectedToken)
  | fuel + 1, b :: bs =>
    if b = INTEGER_TOKEN then read_integer bs
    else if b = LIST_TOKEN then
      match read_list_body fuel bs with
      | .ok vs rest => .ok (.list vs) rest
      | .err e => .err e
      | .panic => .panic
      | .outOfFuel => .outOfFuel
    else if b = DICT_TOKEN then
      match read_dict_body fuel bs .nil with
      | .ok es rest => .ok (.dict es) rest
      | .err e => .err e
      | .panic => .panic
      | .outOfFuel => .outOfFuel
    else if isDigit b then read_bytes (b :: bs)
    else DRes.err (.decoder .unknownToken)
def read_list_body : Nat → List Nat → DResL
  | 0, _ => DResL.outOfFuel
  | fuel + 1, input =>
    if input.head? = some END_TOKEN then .ok .nil (input.drop 1)
    else
      match read_anything fuel input with
      | .ok v rest =>
        match read_list_body fuel rest with
        | .ok vs rest' => .ok (.cons v vs) rest'
        | .err e => .err e
        | .panic => .panic
        | .outOfFuel => .outOfFuel
      | .err e => .err e
      | .panic => .panic
      | .outOfFuel => .outOfFuel
def read_dict_body : Nat → List Nat → EntryList → DResE
  | 0, _, _ => DResE.outOfFuel
  | fuel + 1, input, m =>
    if input.head? = some END_TOKEN then .ok m (input.drop 1)
    else
      match read_anything fuel input with
      | .ok key rest =>
        match read_anything fuel rest with
        | .ok value rest' =>
          match key with
          | .bytes kb => read_dict_body fuel rest' (insertSorted (.bytes kb) value m)
          | _ => .err (.decoder .dictKeyNotBytes)
        | .err e => .err e
        | .panic => .panic
        | .outOfFuel => .outOfFuel
      | .err e => .err e
      | .panic => .panic
      | .outOfFuel => .outOfFuel
end

/-- `Value::decode` (lines 23..25).  The fuel `2 * input.length + 1` is
sufficient for every input (each recursion level either consumes a byte
or terminates without further recursion), so `outOfFuel` is unreachable
from here. -/
def Value.decode (input : List Nat) : DRes :=
  read_anything (2 * input.length + 1) input

/-! ## The encoder (bencode.rs lines 192..243) -/

/-- The output sink (`W: AsyncWrite`).  `buf` is what has been written so
far; `failAfter = some n` means the sink accepts `n` more `write_all`
calls and then fails with the I/O error `errCode` (an abstract
identifier); `failAfter = none` is a sink that never fails. -/
structure Sink where
  buf : List Nat
  failAfter : Option Nat
  errCode : Nat
deriving DecidableEq

def Sink.write_all (s : Sink) (bs : List Nat) : Except Nat Sink :=
  match s.failAfter with
  | none => .ok { s with buf := s.buf ++ bs }
  | some 0 => .error s.errCode
  | some (n + 1) => .ok { s with buf := s.buf ++ bs, failAfter := some n }

def write_integer (i : Int) (s : Sink) : Except Nat Sink :=
  match s.write_all [INTEGER_TOKEN] with
  | .ok s1 =>
    match s1.write_all (intDigits i) with
    | .ok s2 => s2.write_all [END_TOKEN]
    | .error e => .error e
  | .error e => .error e

def write_bytes (b : List Nat) (s : Sink) : Except Nat Sink :=
  match s.write_all (natDigits b.length) with
  | .ok s1 =>
    match s1.write_all [DELIM_TOKEN] with
    | .ok s2 => s2.write_all b
    | .error e => .error e
  | .error e => .error e

/- `Encoder::write_anything` (lines 201..208): dispatch on the variant.
The bodies of `write_list` / `write_dict` are inlined into the dispatch
(the named wrappers, equal by `rfl`, follow the block); the `_items`
functions are their element-iteration loops. -/
mutual
def write_anything : Value → Sink → Except Nat Sink
  | .bytes b, s => write_bytes b s
  | .integer i, s => write_integer i s
  | .list l, s =>
    match s.write_all [LIST_TOKEN] with
    | .ok s1 =>
      match write_list_items l s1 with
      | .ok s2 => s2.write_all [END_TOKEN]
      | .error e => .error e
    | .error e => .error e
  | .dict d, s =>
    match s.write_all [DICT_TOKEN] with
    | .ok s1 =>
      match write_dict_items d s1 with
      | .ok s2 => s2.write_all [END_TOKEN]
      | .error e => .error e
    | .error e => .error e
def write_list_items : ValueList → Sink → Except Nat Sink
  | .nil, s => .ok s
  | .cons v vs, s =>
    match write_anything v s with
    | .ok s1 => write_list_items vs s1
    | .error e => .error e
def write_dict_items : EntryList → Sink → Except Nat Sink
  | .nil, s => .ok s
  | .cons k v es, s =>
    match write_anything k s with
    | .ok s1 =>
      match write_anything v s1 with
      | .ok s2 => write_dict_items es s2
      | .error e => .error e
    | .error e => .error e
end

/-- `Encoder::write_list` (lines 228..235). -/
def write_list (l : ValueList) (s : Sink) : Except Nat Sink :=
  match s.write_all [LIST_TOKEN] with
  | .ok s1 =>
    match write_list_items l s1 with
    | .ok s2 => s2.write_all [END_TOKEN]
    | .error e => .error e
  | .error e => .error e

/-- `Encoder::write_dict` (lines 237..244). -/
def write_dict (d : EntryList) (s : Sink) : Except Nat Sink :=
  match s.write_all [DICT_TOKEN] with
  | .ok s1 =>
    match write_dict_items d s1 with
    | .ok s2 => s2.write_all [END_TOKEN]
    | .error e => .error e
  | .error e => .error e

/-- `Value::encode` (lines 27..29) against an in-memory sink that never
fails (the tests' `BufWriter<&mut Vec<u8>>`): the bytes written. -/
def Value.encode (v : Value) : List Nat :=
  match write_anything v { buf := [], failAfter := none, errCode := 0 } with
  | .ok s => s.buf
  | .error _ => []

/-! ## Pure byte-level encoding

`encBytes v` is the byte sequence `write_anything` sends to the sink (the
agreement theorem `write_anything_ok` below); having it as a plain
recursive function makes the round-trip induction tractable. -/

mutual
def encBytes : Value → List Nat
  | .bytes b => natDigits b.length ++ DELIM_TOKEN :: b
  | .integer i => INTEGER_TOKEN :: (intDigits i ++ [END_TOKEN])
  | .list l => LIST_TOKEN :: (encVL l ++ [END_TOKEN])
  | .dict d => DICT_TOKEN :: (encEL d ++ [END_TOKEN])
def encVL : ValueList → List Nat
  | .nil => []
  | .cons v vs => encBytes v ++ encVL vs
def encEL : EntryList → List Nat
  | .nil => []
  | .cons k v es => encBytes k ++ (encBytes v ++ encEL es)
end

/-! ## Data-model invariants

`validV` is the well-formedness required of a `Value` by the data model:
integers fit in i64 (the Rust payload type), byte strings have a length
representable as a usize (the length of a real `Vec<u8>`), and dictionary
entry sequences are what a real `BTreeMap<Value, Value>` holds: keys that
are `Bytes`, unique, in strictly ascending byte-wise order. -/

def isBytesV : Value → Bool
  | .bytes _ => true
  | _ => false

/-- Strict byte-wise ascending order between two `Bytes` keys. -/
def keyLtBytes : Value → Value → Bool
  | .bytes a, .bytes b =>
    match compareBytes a b with
    | .lt => true
    | _ => false
  | _, _ => false

/-- Keys of the entry sequence are `Bytes` and strictly ascending. -/
def ascKeys : EntryList → Bool
  | .nil => true
  | .cons k _ .nil => isBytesV k
  | .cons k _ (.cons k' v' es) => keyLtBytes k k' && ascKeys (.cons k' v' es)

mutual
def validV : Value → Bool
  | .bytes b => decide (b.length ≤ 2 ^ 64 - 1)
  | .integer i => decide (-(2 ^ 63) ≤ i) && decide (i ≤ 2 ^ 63 - 1)
  | .list l => validVL l
  | .dict d => validEL d && ascKeys d
def validVL : ValueList → Bool
  | .nil => true
  | .cons v vs => validV v && validVL vs
def validEL : EntryList → Bool
  | .nil => true
  | .cons k v es => isBytesV k && validV k && validV v && validEL es
end

/-! ## Orderedness of every dictionary in a tree (for the decode invariant) -/

mutual
def dictsOrdered : Value → Bool
  | .bytes _ => true
  | .integer _ => true
  | .list l => dictsOrderedL l
  | .dict d => ascKeys d && dictsOrderedE d
def dictsOrderedL : ValueList → Bool
  | .nil => true
  | .cons v vs => dictsOrdered v && dictsOrderedL vs
def dictsOrderedE : EntryList → Bool
  | .nil => true
  | .cons k v es => dictsOrdered k && dictsOrdered v && dictsOrderedE es
end

/- Every dictionary key anywhere in the tree is the `Bytes` variant. -/
mutual
def keysBytes : Value → Bool
  | .bytes _ => true
  | .integer _ => true
  | .list l => keysBytesL l
  | .dict d => keysBytesE d
def keysBytesL : ValueList → Bool
  | .nil => true
  | .cons v vs => keysBytes v && keysBytesL vs
def keysBytesE : EntryList → Bool
  | .nil => true
  | .cons k v es => isBytesV k && keysBytes k && keysBytes v && keysBytesE es
end

/-! ## Entry-sequence helpers for the duplicate-key claim -/

/-- How often the key `bytes kb` occurs in the entry sequence. -/
def countKeyE : EntryList → List Nat → Nat
  | .nil, _ => 0
  | .cons k _ es, kb =>
    match compareValue (.bytes kb) k with
    | .eq => countKeyE es kb + 1
    | _ => countKeyE es kb

/-- The value of the last entry carrying the key `bytes kb`. -/
def lastValE : EntryList → List Nat → Option Value
  | .nil, _ => none
  | .cons k v es, kb =>
    match lastValE es kb with
    | some w => some w
    | none =>
      match compareValue (.bytes kb) k with
      | .eq => some v
      | _ => none

/-- The result of a write chain carries the sink's error code: an `ok`
sink keeps it, an `error` surfaces exactly it. -/
def CodeOf (r : Except Nat Sink) (c : Nat) : Prop :=
  match r with
  | .error e => e = c
  | .ok s' => s'.errCode = c

/-- Every key of `m` is strictly byte-wise below the `Bytes` key `k`. -/
def allLtE : EntryList → Value → Bool
  | .nil, _ => true
  | .cons k' _ es, k => keyLtBytes k' k && allLtE es k

def headKeyE : EntryList → Option Value
  | .nil => none
  | .cons k _ _ => some k

/-- A result whose error is the decoder-side (format) family
`DecodeError::DECODER`, as opposed to the I/O family. -/
def isDecoderError : DRes → Bool
  | .err (.decoder _) => true
  | _ => false

/-! ## Numeral lemmas -/

theorem write_anything_list (l : ValueList) (s : Sink) :
    write_anything (.list l) s = write_list l s := rfl

theorem write_anything_dict (d : EntryList) (s : Sink) :
    write_anything (.dict d) s = write_dict d s := rfl


theorem digitsToVal_concat (l : List Nat) (d : Nat) :
    digitsToVal (l ++ [d]) = digitsToVal l * 10 + (d - 48) := by
  simp [digitsToVal, List.foldl_append]

theorem natDigitsAux_spec :
    ∀ fuel n, n < fuel →
      (∀ x ∈ natDigitsAux n fuel, 48 ≤ x ∧ x ≤ 57) ∧
      natDigitsAux n fuel ≠ [] ∧
      digitsToVal (natDigitsAux n fuel) = n := by
  intro fuel
  induction fuel with
  | zero => intro n hn; omega
  | succ f ih =>
    intro n _
    by_cases h : n < 10
    · refine ⟨?_, ?_, ?_⟩
      · intro x hx
        simp [natDigitsAux, h] at hx
        omega
      · simp [natDigitsAux, h]
      · simp [natDigitsAux, h, digitsToVal]
    · have hrec : n / 10 < f := by
        have h1 : n / 10 < n := Nat.div_lt_self (by omega) (by omega)
        have h2 : n / 10 + 1 < n := by
          have : n / 10 ≤ n / 2 := Nat.div_le_div_left (by omega) (by omega)
          have : n / 2 + 1 < n := by omega
          omega
        omega
      obtain ⟨hmem, hne, hval⟩ := ih (n / 10) hrec
      refine ⟨?_, ?_, ?_⟩
      · intro x hx
        simp only [natDigitsAux, if_neg h, List.mem_append, List.mem_singleton] at hx
        rcases hx with hx | hx
        · exact hmem x hx
        · omega
      · simp [natDigitsAux, if_neg h]
      · simp only [natDigitsAux, if_neg h, digitsToVal_concat, hval]
        omega

theorem natDigits_mem (n : Nat) : ∀ x ∈ natDigits n, 48 ≤ x ∧ x ≤ 57 :=
  (natDigitsAux_spec (n + 1) n (by omega)).1

theorem natDigits_ne_nil (n : Nat) : natDigits n ≠ [] :=
  (natDigitsAux_spec (n + 1) n (by omega)).2.1

theorem digitsToVal_natDigits (n : Nat) : digitsToVal (natDigits n) = n :=
  (natDigitsAux_spec (n + 1) n (by omega)).2.2

theorem allDigits_natDigits (n : Nat) : allDigits (natDigits n) = true := by
  simp only [allDigits, List.all_eq_true, isDigit, Bool.and_eq_true, decide_eq_true_eq]
  exact fun x hx => natDigits_mem n x hx

theorem natDigits_head (n : Nat) :
    ∃ d t, natDigits n = d :: t ∧ 48 ≤ d ∧ d ≤ 57 := by
  rcases hd : natDigits n with _ | ⟨d, t⟩
  · exact absurd hd (natDigits_ne_nil n)
  · exact ⟨d, t, rfl, natDigits_mem n d (by rw [hd]; exact List.mem_cons_self d t)⟩

theorem parseUsize_natDigits (n : Nat) (h : n ≤ 2 ^ 64 - 1) :
    parseUsize (natDigits n) = some n := by
  obtain ⟨d, t, hdt, hd1, hd2⟩ := natDigits_head n
  rw [parseUsize, hdt]
  have h43 : ¬((d :: t).head? = some 43) := by simp; omega
  rw [if_neg h43]
  rw [← hdt]
  rw [if_pos ⟨natDigits_ne_nil n, allDigits_natDigits n, by rw [digitsToVal_natDigits]; exact h⟩,
    digitsToVal_natDigits]

theorem parseI64_intDigits (i : Int) (h1 : -(2 ^ 63) ≤ i) (h2 : i ≤ 2 ^ 63 - 1) :
    parseI64 (intDigits i) = some i := by
  by_cases hneg : i < 0
  · have habs : (i.natAbs : Int) = -i := by omega
    rw [intDigits, if_pos hneg, parseI64]
    have h45 : (45 :: natDigits i.natAbs).head? = some 45 := rfl
    rw [if_pos h45]
    have hle : digitsToVal (natDigits i.natAbs) ≤ 2 ^ 63 := by
      rw [digitsToVal_natDigits]; omega
    have hcond : (45 :: natDigits i.natAbs).tail ≠ [] ∧
        allDigits (45 :: natDigits i.natAbs).tail = true ∧
        digitsToVal (45 :: natDigits i.natAbs).tail ≤ 2 ^ 63 := by
      simp only [List.tail_cons]
      exact ⟨natDigits_ne_nil _, allDigits_natDigits _, hle⟩
    rw [if_pos hcond]
    simp only [List.tail_cons, digitsToVal_natDigits]
    rw [habs, neg_neg]
  · have habs : (i.natAbs : Int) = i := by omega
    rw [intDigits, if_neg hneg, parseI64]
    obtain ⟨d, t, hdt, hd1, hd2⟩ := natDigits_head i.natAbs
    have h45 : ¬(natDigits i.natAbs).head? = some 45 := by rw [hdt]; simp; omega
    have h43 : ¬(natDigits i.natAbs).head? = some 43 := by rw [hdt]; simp; omega
    rw [if_neg h45, if_neg h43]
    have hle : digitsToVal (natDigits i.natAbs) ≤ 2 ^ 63 - 1 := by
      rw [digitsToVal_natDigits]; omega
    rw [if_pos ⟨natDigits_ne_nil _, allDigits_natDigits _, hle⟩, digitsToVal_natDigits]
    exact congrArg some habs

theorem intDigits_mem (i : Int) : ∀ x ∈ intDigits i, x = 45 ∨ (48 ≤ x ∧ x ≤ 57) := by
  intro x hx
  rw [intDigits] at hx
  by_cases hneg : i < 0
  · rw [if_pos hneg] at hx
    rcases List.mem_cons.mp hx with hx | hx
    · exact Or.inl hx
    · exact Or.inr (natDigits_mem _ x hx)
  · rw [if_neg hneg] at hx
    exact Or.inr (natDigits_mem _ x hx)

/-! ## readUntil lemmas -/

theorem readUntil_append (d : Nat) (pre rest : List Nat) (h : ∀ x ∈ pre, x ≠ d) :
    readUntil d (pre ++ d :: rest) = pre ++ [d] := by
  induction pre with
  | nil => simp [readUntil]
  | cons p ps ih =>
    have hp : p ≠ d := h p (List.mem_cons_self p ps)
    show (if p = d then [p] else p :: readUntil d (ps ++ d :: rest)) = (p :: ps) ++ [d]
    rw [if_neg hp, ih (fun x hx => h x (List.mem_cons_of_mem p hx))]
    simp

/-! ## Primitive reader lemmas on well-formed input -/

theorem read_integer_enc (i : Int) (rest : List Nat)
    (h1 : -(2 ^ 63) ≤ i) (h2 : i ≤ 2 ^ 63 - 1) :
    read_integer (intDigits i ++ END_TOKEN :: rest) = DRes.ok (.integer i) rest := by
  have hne : ∀ x ∈ intDigits i, x ≠ END_TOKEN := by
    intro x hx
    rcases intDigits_mem i x hx with h | h <;> simp [END_TOKEN] <;> omega
  rw [read_integer]
  simp only [readUntil_append END_TOKEN (intDigits i) rest hne]
  have hdrop : (intDigits i ++ END_TOKEN :: rest).drop (intDigits i ++ [END_TOKEN]).length
      = rest := by
    rw [show intDigits i ++ END_TOKEN :: rest = (intDigits i ++ [END_TOKEN]) ++ rest by simp,
      List.drop_left]
  rw [hdrop, List.getLast?_concat, List.dropLast_concat]
  norm_num [END_TOKEN]
  rw [parseI64_intDigits i h1 h2]

theorem read_bytes_enc (b rest : List Nat) (h : b.length ≤ 2 ^ 64 - 1) :
    read_bytes (natDigits b.length ++ DELIM_TOKEN :: (b ++ rest)) =
      DRes.ok (.bytes b) rest := by
  have hne : ∀ x ∈ natDigits b.length, x ≠ DELIM_TOKEN := by
    intro x hx
    have := natDigits_mem _ x hx
    simp [DELIM_TOKEN]; omega
  rw [read_bytes]
  simp only [readUntil_append DELIM_TOKEN (natDigits b.length) (b ++ rest) hne]
  have hdrop : (natDigits b.length ++ DELIM_TOKEN :: (b ++ rest)).drop
      (natDigits b.length ++ [DELIM_TOKEN]).length = b ++ rest := by
    rw [show natDigits b.length ++ DELIM_TOKEN :: (b ++ rest)
        = (natDigits b.length ++ [DELIM_TOKEN]) ++ (b ++ rest) by simp, List.drop_left]
  rw [hdrop, List.getLast?_concat, List.dropLast_concat]
  norm_num [DELIM_TOKEN]
  rw [parseUsize_natDigits _ h]
  have hlen : ¬((b ++ rest).length < b.length) := by simp
  simp [hlen, List.take_left, List.drop_left]

theorem read_bytes_trunc (n : Nat) (bs : List Nat) (h : n ≤ 2 ^ 64 - 1)
    (h2 : bs.length < n) :
    read_bytes (natDigits n ++ DELIM_TOKEN :: bs) = DRes.err (.io .unexpectedEof) := by
  have hne : ∀ x ∈ natDigits n, x ≠ DELIM_TOKEN := by
    intro x hx
    have := natDigits_mem _ x hx
    simp [DELIM_TOKEN]; omega
  rw [read_bytes]
  simp only [readUntil_append DELIM_TOKEN (natDigits n) bs hne]
  have hdrop : (natDigits n ++ DELIM_TOKEN :: bs).drop
      (natDigits n ++ [DELIM_TOKEN]).length = bs := by
    rw [show natDigits n ++ DELIM_TOKEN :: bs
        = (natDigits n ++ [DELIM_TOKEN]) ++ bs by simp, List.drop_left]
  rw [hdrop, List.getLast?_concat, List.dropLast_concat]
  norm_num [DELIM_TOKEN]
  rw [parseUsize_natDigits _ h]
  simp [h2]

/-! ## Encoder lemmas

`write_anything` against a never-failing sink appends exactly `encBytes`;
against any sink, the only error it can return is the sink's own error,
unchanged. -/

theorem write_all_ok (s : Sink) (bs : List Nat) (h : s.failAfter = none) :
    s.write_all bs =
      .ok { buf := s.buf ++ bs, failAfter := none, errCode := s.errCode } := by
  simp [Sink.write_all, h]

theorem write_bytes_ok (b : List Nat) (s : Sink) (h : s.failAfter = none) :
    write_bytes b s =
      .ok { buf := s.buf ++ encBytes (.bytes b), failAfter := none,
            errCode := s.errCode } := by
  simp [write_bytes, Sink.write_all, h, encBytes]

theorem write_integer_ok (i : Int) (s : Sink) (h : s.failAfter = none) :
    write_integer i s =
      .ok { buf := s.buf ++ encBytes (.integer i), failAfter := none,
            errCode := s.errCode } := by
  simp [write_integer, Sink.write_all, h, encBytes]

mutual
theorem write_anything_ok : ∀ (v : Value) (s : Sink), s.failAfter = none →
    write_anything v s =
      .ok { buf := s.buf ++ encBytes v, failAfter := none, errCode := s.errCode }
  | .bytes b, s, h => by
    rw [show write_anything (.bytes b) s = write_bytes b s from rfl]
    exact write_bytes_ok b s h
  | .integer i, s, h => by
    rw [show write_anything (.integer i) s = write_integer i s from rfl]
    exact write_integer_ok i s h
  | .list l, s, h => by
    simp [write_anything, Sink.write_all, h, write_list_items_ok l, encBytes]
  | .dict d, s, h => by
    simp [write_anything, Sink.write_all, h, write_dict_items_ok d, encBytes]
theorem write_list_items_ok : ∀ (l : ValueList) (s : Sink), s.failAfter = none →
    write_list_items l s =
      .ok { buf := s.buf ++ encVL l, failAfter := none, errCode := s.errCode }
  | .nil, s, h => by
    cases s
    simp_all [write_list_items, encVL]
  | .cons v vs, s, h => by
    simp [write_list_items, write_anything_ok v s h, write_list_items_ok vs, encVL]
theorem write_dict_items_ok : ∀ (d : EntryList) (s : Sink), s.failAfter = none →
    write_dict_items d s =
      .ok { buf := s.buf ++ encEL d, failAfter := none, errCode := s.errCode }
  | .nil, s, h => by
    cases s
    simp_all [write_dict_items, encEL]
  | .cons k v es, s, h => by
    simp [write_dict_items, write_anything_ok k s h, write_anything_ok v,
      write_dict_items_ok es, encEL]
end

theorem Value.encode_eq (v : Value) : Value.encode v = encBytes v := by
  rw [Value.encode,
    write_anything_ok v { buf := [], failAfter := none, errCode := 0 } rfl]
  rfl

theorem write_all_code (s : Sink) (bs : List Nat) :
    CodeOf (s.write_all bs) s.errCode := by
  rw [Sink.write_all]
  rcases s.failAfter with _ | (_ | n) <;> simp [CodeOf]

theorem codeOf_step (r : Except Nat Sink) (c : Nat) (f : Sink → Except Nat Sink)
    (h1 : CodeOf r c) (h2 : ∀ s', s'.errCode = c → CodeOf (f s') c) :
    CodeOf (match r with | .ok s' => f s' | .error e => .error e) c := by
  cases r with
  | ok s' => exact h2 s' h1
  | error e => exact h1

theorem write_all_code_of (s : Sink) (bs : List Nat) (c : Nat)
    (h : s.errCode = c) : CodeOf (s.write_all bs) c := h ▸ write_all_code s bs

theorem write_integer_code (i : Int) (s : Sink) :
    CodeOf (write_integer i s) s.errCode := by
  rw [write_integer]
  exact codeOf_step _ _ _ (write_all_code s _) (fun s1 h1 =>
    codeOf_step _ _ _ (write_all_code_of s1 _ _ h1) (fun s2 h2 =>
      write_all_code_of s2 _ _ h2))

theorem write_bytes_code (b : List Nat) (s : Sink) :
    CodeOf (write_bytes b s) s.errCode := by
  rw [write_bytes]
  exact codeOf_step _ _ _ (write_all_code s _) (fun s1 h1 =>
    codeOf_step _ _ _ (write_all_code_of s1 _ _ h1) (fun s2 h2 =>
      write_all_code_of s2 _ _ h2))

mutual
theorem write_anything_code : ∀ (v : Value) (s : Sink),
    CodeOf (write_anything v s) s.errCode
  | .bytes b, s => write_bytes_code b s
  | .integer i, s => write_integer_code i s
  | .list l, s => by
    rw [show write_anything (.list l) s = write_list l s from rfl, write_list]
    exact codeOf_step _ _ _ (write_all_code s _) (fun s1 h1 =>
      codeOf_step _ _ _ (h1 ▸ write_list_items_code l s1) (fun s2 h2 =>
        write_all_code_of s2 _ _ h2))
  | .dict d, s => by
    rw [show write_anything (.dict d) s = write_dict d s from rfl, write_dict]
    exact codeOf_step _ _ _ (write_all_code s _) (fun s1 h1 =>
      codeOf_step _ _ _ (h1 ▸ write_dict_items_code d s1) (fun s2 h2 =>
        write_all_code_of s2 _ _ h2))
theorem write_list_items_code : ∀ (l : ValueList) (s : Sink),
    CodeOf (write_list_items l s) s.errCode
  | .nil, s => by simp [write_list_items, CodeOf]
  | .cons v vs, s => by
    rw [write_list_items]
    exact codeOf_step _ _ _ (write_anything_code v s) (fun s1 h1 =>
      h1 ▸ write_list_items_code vs s1)
theorem write_dict_items_code : ∀ (d : EntryList) (s : Sink),
    CodeOf (write_dict_items d s) s.errCode
  | .nil, s => by simp [write_dict_items, CodeOf]
  | .cons k v es, s => by
    rw [write_dict_items]
    exact codeOf_step _ _ _ (write_anything_code k s) (fun s1 h1 =>
      codeOf_step _ _ _ (h1 ▸ write_anything_code v s1) (fun s2 h2 =>
        h2 ▸ write_dict_items_code es s2))
end

/-! ## Order lemmas for byte-wise comparison -/

theorem compareNat_lt_of {a b : Nat} (h : a < b) : compareNat a b = .lt := by
  simp [compareNat, h]

theorem compareNat_gt_of {a b : Nat} (h : b < a) : compareNat a b = .gt := by
  rw [compareNat, if_neg (by omega), if_pos h]

theorem compareNat_self (a : Nat) : compareNat a a = .eq := by
  simp [compareNat]

theorem compareBytes_self : ∀ a : List Nat, compareBytes a a = .eq := by
  intro a
  induction a with
  | nil => rfl
  | cons x xs ih => simp [compareBytes, compareNat_self, ih]

theorem compareBytes_eq_iff : ∀ a b : List Nat, compareBytes a b = .eq ↔ a = b := by
  intro a
  induction a with
  | nil => intro b; cases b <;> simp [compareBytes]
  | cons x xs ih =>
    intro b
    cases b with
    | nil => simp [compareBytes]
    | cons y ys =>
      rcases lt_trichotomy x y with h | h | h
      · simp [compareBytes, compareNat_lt_of h]
        omega
      · subst h
        simp [compareBytes, compareNat_self, ih ys]
      · simp [compareBytes, compareNat_gt_of h]
        omega

theorem compareBytes_lt_gt : ∀ a b : List Nat,
    compareBytes a b = .lt ↔ compareBytes b a = .gt := by
  intro a
  induction a with
  | nil => intro b; cases b <;> simp [compareBytes]
  | cons x xs ih =>
    intro b
    cases b with
    | nil => simp [compareBytes]
    | cons y ys =>
      rcases lt_trichotomy x y with h | h | h
      · simp [compareBytes, compareNat_lt_of h, compareNat_gt_of h]
      · subst h
        simp [compareBytes, compareNat_self, ih ys]
      · simp [compareBytes, compareNat_gt_of h, compareNat_lt_of h]

theorem compareBytes_lt_trans : ∀ a b c : List Nat,
    compareBytes a b = .lt → compareBytes b c = .lt → compareBytes a c = .lt := by
  intro a
  induction a with
  | nil =>
    intro b c h1 h2
    cases b with
    | nil => cases c <;> simp_all [compareBytes]
    | cons y ys =>
      cases c with
      | nil => simp [compareBytes] at h2
      | cons z zs => simp [compareBytes]
  | cons x xs ih =>
    intro b c h1 h2
    cases b with
    | nil => simp [compareBytes] at h1
    | cons y ys =>
      cases c with
      | nil => simp [compareBytes] at h2
      | cons z zs =>
        rcases lt_trichotomy x y with hxy | hxy | hxy
        · rcases lt_trichotomy y z with hyz | hyz | hyz
          · exact by simp [compareBytes, compareNat_lt_of (by omega : x < z)]
          · subst hyz
            exact by simp [compareBytes, compareNat_lt_of hxy]
          · rw [compareBytes, compareNat_gt_of hyz] at h2
            simp at h2
        · subst hxy
          rcases lt_trichotomy x z with hyz | hyz | hyz
          · exact by simp [compareBytes, compareNat_lt_of hyz]
          · subst hyz
            rw [compareBytes, compareNat_self] at h1 h2 ⊢
            exact ih ys zs h1 h2
          · rw [compareBytes, compareNat_gt_of hyz] at h2
            simp at h2
        · rw [compareBytes, compareNat_gt_of hxy] at h1
          simp at h1

theorem compareValue_bytes (a b : List Nat) :
    compareValue (.bytes a) (.bytes b) = compareBytes a b := by
  simp [compareValue]

theorem keyLtBytes_bytes_iff (a b : List Nat) :
    keyLtBytes (.bytes a) (.bytes b) = true ↔ compareBytes a b = .lt := by
  rw [keyLtBytes]
  cases h : compareBytes a b <;> simp

theorem keyLtBytes_left_bytes {k k' : Value} (h : keyLtBytes k k' = true) :
    ∃ a, k = .bytes a := by
  cases k <;> cases k' <;> simp [keyLtBytes] at h ⊢

theorem keyLtBytes_right_bytes {k k' : Value} (h : keyLtBytes k k' = true) :
    ∃ b, k' = .bytes b := by
  cases k <;> cases k' <;> simp [keyLtBytes] at h ⊢

theorem keyLtBytes_trans {a b c : Value} (h1 : keyLtBytes a b = true)
    (h2 : keyLtBytes b c = true) : keyLtBytes a c = true := by
  obtain ⟨x, rfl⟩ := keyLtBytes_left_bytes h1
  obtain ⟨y, rfl⟩ := keyLtBytes_right_bytes h1
  obtain ⟨z, rfl⟩ := keyLtBytes_right_bytes h2
  rw [keyLtBytes_bytes_iff] at h1 h2 ⊢
  exact compareBytes_lt_trans x y z h1 h2

/-! ## insertSorted on ascending entry sequences -/

theorem appendE_nil : ∀ m : EntryList, appendE m .nil = m
  | .nil => rfl
  | .cons k v es => by rw [appendE, appendE_nil es]

theorem appendE_assoc : ∀ a b c : EntryList,
    appendE (appendE a b) c = appendE a (appendE b c)
  | .nil, _, _ => rfl
  | .cons k v es, b, c => by rw [appendE, appendE, appendE, appendE_assoc es b c]

theorem insertSorted_append_of_allLt :
    ∀ (m : EntryList) (k v : Value), allLtE m k = true →
      insertSorted k v m = appendE m (.cons k v .nil)
  | .nil, _, _, _ => rfl
  | .cons k' v' es, k, v, h => by
    rw [allLtE, Bool.and_eq_true] at h
    obtain ⟨a, hka⟩ := keyLtBytes_right_bytes h.1
    obtain ⟨b, hkb⟩ := keyLtBytes_left_bytes h.1
    have hgt : compareValue k k' = .gt := by
      rw [hka, hkb, compareValue_bytes, ← compareBytes_lt_gt]
      rw [hka, hkb, keyLtBytes_bytes_iff] at h
      exact h.1
    rw [insertSorted, hgt, insertSorted_append_of_allLt es k v h.2, appendE]

theorem ascKeys_head_lt :
    ∀ (m : EntryList) (k0 k : Value) (v0 v : Value) (es : EntryList),
      ascKeys (.cons k0 v0 (appendE m (.cons k v es))) = true →
      keyLtBytes k0 k = true
  | .nil, k0, k, v0, v, es, h => by
    rw [appendE] at h
    rw [ascKeys, Bool.and_eq_true] at h
    exact h.1
  | .cons k1 v1 m', k0, k, v0, v, es, h => by
    rw [appendE] at h
    rw [ascKeys, Bool.and_eq_true] at h
    exact keyLtBytes_trans h.1 (ascKeys_head_lt m' k1 k v1 v es h.2)

theorem ascKeys_append_allLt :
    ∀ (m : EntryList) (k v : Value) (es : EntryList),
      ascKeys (appendE m (.cons k v es)) = true → allLtE m k = true
  | .nil, k, v, es, _ => rfl
  | .cons k0 v0 m', k, v, es, h => by
    rw [appendE] at h
    rw [allLtE, Bool.and_eq_true]
    have htail : ascKeys (appendE m' (.cons k v es)) = true := by
      rcases hm : appendE m' (.cons k v es) with _ | ⟨k1, v1, t⟩
      · cases m' <;> simp [appendE] at hm
      · rw [hm] at h
        rw [ascKeys, Bool.and_eq_true] at h
        exact h.2
    exact ⟨ascKeys_head_lt m' k0 k v0 v es h, ascKeys_append_allLt m' k v es htail⟩

theorem ascKeys_tail :
    ∀ (k v : Value) (es : EntryList), ascKeys (.cons k v es) = true →
      ascKeys es = true := by
  intro k v es h
  cases es with
  | nil => rfl
  | cons k' v' t =>
    rw [ascKeys, Bool.and_eq_true] at h
    exact h.2

theorem insertAllE_of_asc :
    ∀ (es m : EntryList), ascKeys (appendE m es) = true →
      insertAllE m es = appendE m es
  | .nil, m, _ => by rw [insertAllE, appendE_nil]
  | .cons k v es', m, h => by
    have hlt : allLtE m k = true := ascKeys_append_allLt m k v es' h
    rw [insertAllE, insertSorted_append_of_allLt m k v hlt]
    have happ : appendE (appendE m (.cons k v .nil)) es' = appendE m (.cons k v es') := by
      rw [appendE_assoc]
      rfl
    rw [insertAllE_of_asc es' (appendE m (.cons k v .nil)) (by rw [happ]; exact h), happ]

/-! ## Decoding an encoded value (round-trip core) -/

theorem encBytes_length_pos : ∀ v : Value, 1 ≤ (encBytes v).length
  | .bytes b => by
    rcases natDigits_head b.length with ⟨d, t, hdt, _, _⟩
    simp [encBytes, hdt]
  | .integer i => by simp [encBytes]
  | .list l => by simp [encBytes]
  | .dict d => by simp [encBytes]

theorem encBytes_head_ne_end (v : Value) (r : List Nat) :
    ¬((encBytes v ++ r).head? = some END_TOKEN) := by
  cases v with
  | bytes b =>
    rcases natDigits_head b.length with ⟨d, t, hdt, h1, h2⟩
    simp [encBytes, hdt, END_TOKEN]
    omega
  | integer i => simp [encBytes, END_TOKEN, INTEGER_TOKEN]
  | list l => simp [encBytes, END_TOKEN, LIST_TOKEN]
  | dict d => simp [encBytes, END_TOKEN, DICT_TOKEN]

mutual
theorem dec_enc : ∀ (v : Value) (rest : List Nat) (fuel : Nat), validV v = true →
    (encBytes v).length ≤ fuel →
    read_anything fuel (encBytes v ++ rest) = DRes.ok v rest
  | .bytes b, rest, fuel, hv, hf => by
    obtain ⟨f, rfl⟩ : ∃ f, fuel = f + 1 :=
      ⟨fuel - 1, by have := encBytes_length_pos (.bytes b); omega⟩
    have hlen : b.length ≤ 2 ^ 64 - 1 := by simpa [validV] using hv
    obtain ⟨d, t, hdt, hd1, hd2⟩ := natDigits_head b.length
    have hin : encBytes (.bytes b) ++ rest = d :: (t ++ (DELIM_TOKEN :: (b ++ rest))) := by
      simp [encBytes, hdt]
    rw [hin]
    simp only [read_anything]
    rw [if_neg (by simp [INTEGER_TOKEN]; omega)]
    rw [if_neg (by simp [LIST_TOKEN]; omega)]
    rw [if_neg (by simp [DICT_TOKEN]; omega)]
    rw [if_pos (show isDigit d = true by simp [isDigit]; omega)]
    have hin2 : d :: (t ++ (DELIM_TOKEN :: (b ++ rest)))
        = natDigits b.length ++ DELIM_TOKEN :: (b ++ rest) := by
      rw [hdt]
      rfl
    rw [hin2]
    exact read_bytes_enc b rest hlen
  | .integer i, rest, fuel, hv, hf => by
    obtain ⟨f, rfl⟩ : ∃ f, fuel = f + 1 :=
      ⟨fuel - 1, by have := encBytes_length_pos (.integer i); omega⟩
    have hr : (-(2 ^ 63) ≤ i ∧ i ≤ 2 ^ 63 - 1) := by simpa [validV] using hv
    have hin : encBytes (.integer i) ++ rest
        = INTEGER_TOKEN :: (intDigits i ++ (END_TOKEN :: rest)) := by
      simp [encBytes]
    rw [hin]
    simp only [read_anything]
    rw [if_pos trivial]
    exact read_integer_enc i rest hr.1 hr.2
  | .list l, rest, fuel, hv, hf => by
    obtain ⟨f, rfl⟩ : ∃ f, fuel = f + 1 :=
      ⟨fuel - 1, by have := encBytes_length_pos (.list l); omega⟩
    have hvl : validVL l = true := by simpa [validV] using hv
    have hlen : (encBytes (.list l)).length = (encVL l).length + 2 := by simp [encBytes]
    have hin : encBytes (.list l) ++ rest
        = LIST_TOKEN :: (encVL l ++ (END_TOKEN :: rest)) := by
      simp [encBytes]
    rw [hin]
    simp only [read_anything]
    rw [if_pos trivial]
    rw [dec_encL l rest f hvl (by omega), if_neg (by decide)]
  | .dict es, rest, fuel, hv, hf => by
    obtain ⟨f, rfl⟩ : ∃ f, fuel = f + 1 :=
      ⟨fuel - 1, by have := encBytes_length_pos (.dict es); omega⟩
    have hed : (validEL es = true ∧ ascKeys es = true) := by simpa [validV] using hv
    have hlen : (encBytes (.dict es)).length = (encEL es).length + 2 := by simp [encBytes]
    have hin : encBytes (.dict es) ++ rest
        = DICT_TOKEN :: (encEL es ++ (END_TOKEN :: rest)) := by
      simp [encBytes]
    rw [hin]
    simp only [read_anything]
    rw [if_pos trivial]
    rw [dec_encE es rest f .nil hed.1 (by omega), if_neg (by decide), if_neg (by decide)]
    have hid : insertAllE EntryList.nil es = es := by
      rw [insertAllE_of_asc es .nil hed.2]
      rfl
    rw [hid]
theorem dec_encL : ∀ (l : ValueList) (rest : List Nat) (fuel : Nat), validVL l = true →
    (encVL l).length + 1 ≤ fuel →
    read_list_body fuel (encVL l ++ END_TOKEN :: rest) = DResL.ok l rest
  | .nil, rest, fuel, _, hf => by
    obtain ⟨f, rfl⟩ : ∃ f, fuel = f + 1 := ⟨fuel - 1, by omega⟩
    simp [read_list_body, encVL]
  | .cons v vs, rest, fuel, hv, hf => by
    obtain ⟨f, rfl⟩ : ∃ f, fuel = f + 1 := ⟨fuel - 1, by omega⟩
    have hv1 : (validV v = true ∧ validVL vs = true) := by simpa [validVL] using hv
    have hlen : (encVL (.cons v vs)).length
        = (encBytes v).length + (encVL vs).length := by simp [encVL]
    have hin : encVL (.cons v vs) ++ END_TOKEN :: rest
        = encBytes v ++ (encVL vs ++ (END_TOKEN :: rest)) := by simp [encVL]
    rw [hin]
    simp only [read_list_body]
    rw [if_neg (encBytes_head_ne_end v _)]
    have hfin : encVL vs ++ (END_TOKEN :: rest) = encVL vs ++ END_TOKEN :: rest := rfl
    have hp := encBytes_length_pos v
    have hb1 : (encBytes v).length ≤ f := by omega
    have hb2 : (encVL vs).length + 1 ≤ f := by omega
    simp only [dec_enc v (encVL vs ++ (END_TOKEN :: rest)) f hv1.1 hb1, hfin,
      dec_encL vs rest f hv1.2 hb2]
theorem dec_encE : ∀ (es : EntryList) (rest : List Nat) (fuel : Nat) (m : EntryList),
    validEL es = true → (encEL es).length + 1 ≤ fuel →
    read_dict_body fuel (encEL es ++ END_TOKEN :: rest) m
      = DResE.ok (insertAllE m es) rest
  | .nil, rest, fuel, m, _, hf => by
    obtain ⟨f, rfl⟩ : ∃ f, fuel = f + 1 := ⟨fuel - 1, by omega⟩
    simp [read_dict_body, encEL, insertAllE]
  | .cons k v es, rest, fuel, m, hv, hf => by
    obtain ⟨f, rfl⟩ : ∃ f, fuel = f + 1 := ⟨fuel - 1, by omega⟩
    have hvp : (((isBytesV k = true ∧ validV k = true) ∧ validV v = true) ∧
        validEL es = true) := by simpa [validEL] using hv
    obtain ⟨⟨⟨hkB, hkV⟩, hvV⟩, hesV⟩ := hvp
    obtain ⟨kb, rfl⟩ : ∃ kb, k = .bytes kb := by
      cases k with
      | bytes kb => exact ⟨kb, rfl⟩
      | integer i => simp [isBytesV] at hkB
      | list l => simp [isBytesV] at hkB
      | dict d => simp [isBytesV] at hkB
    have hlen : (encEL (.cons (.bytes kb) v es)).length
        = (encBytes (.bytes kb)).length + ((encBytes v).length + (encEL es).length) := by
      simp [encEL]
    have hin : encEL (.cons (.bytes kb) v es) ++ END_TOKEN :: rest
        = encBytes (.bytes kb)
            ++ (encBytes v ++ (encEL es ++ (END_TOKEN :: rest))) := by
      simp [encEL]
    rw [hin]
    simp only [read_dict_body]
    rw [if_neg (encBytes_head_ne_end (.bytes kb) _)]
    have hfin : encEL es ++ (END_TOKEN :: rest) = encEL es ++ END_TOKEN :: rest := rfl
    have hp1 := encBytes_length_pos (Value.bytes kb)
    have hp2 := encBytes_length_pos v
    have hb1 : (encBytes (Value.bytes kb)).length ≤ f := by omega
    have hb2 : (encBytes v).length ≤ f := by omega
    have hb3 : (encEL es).length + 1 ≤ f := by omega
    simp only [dec_enc (.bytes kb) (encBytes v ++ (encEL es ++ (END_TOKEN :: rest))) f
        hkV hb1,
      dec_enc v (encEL es ++ (END_TOKEN :: rest)) f hvV hb2, hfin,
      dec_encE es rest f (insertSorted (.bytes kb) v m) hesV hb3]
    simp only [insertAllE]
end

/-! ## insertSorted preserves key order and componentwise orderedness -/

theorem ascKeys_cons (k v : Value) (m : EntryList) :
    ascKeys (.cons k v m) = true ↔
      (ascKeys m = true ∧
        (match headKeyE m with
         | none => isBytesV k = true
         | some k2 => keyLtBytes k k2 = true)) := by
  cases m with
  | nil => simp [ascKeys, headKeyE]
  | cons k2 v2 es =>
    rw [ascKeys, Bool.and_eq_true, headKeyE]
    exact and_comm

theorem ascKeys_key_bytes (k v : Value) (m : EntryList)
    (h : ascKeys (.cons k v m) = true) : ∃ b, k = .bytes b := by
  rcases (ascKeys_cons k v m).mp h with ⟨_, h2⟩
  cases m with
  | nil =>
    simp [headKeyE] at h2
    cases k with
    | bytes b => exact ⟨b, rfl⟩
    | integer i => simp [isBytesV] at h2
    | list l => simp [isBytesV] at h2
    | dict d => simp [isBytesV] at h2
  | cons k2 v2 es =>
    simp [headKeyE] at h2
    exact keyLtBytes_left_bytes h2

theorem insertSorted_headKey (k v : Value) (m : EntryList) :
    headKeyE (insertSorted k v m) = some k ∨
      headKeyE (insertSorted k v m) = headKeyE m := by
  cases m with
  | nil => left; rfl
  | cons k' v' es =>
    rcases hc : compareValue k k' with _ | _ | _
    · left; simp [insertSorted, hc, headKeyE]
    · right; simp [insertSorted, hc, headKeyE]
    · right; simp [insertSorted, hc, headKeyE]

theorem compareValue_gt_keyLt {kb : List Nat} {k' : Value}
    (hb : ∃ b, k' = .bytes b) (hc : compareValue (.bytes kb) k' = .gt) :
    keyLtBytes k' (.bytes kb) = true := by
  obtain ⟨b, rfl⟩ := hb
  rw [compareValue_bytes] at hc
  rw [keyLtBytes_bytes_iff, compareBytes_lt_gt]
  exact hc

theorem ascKeys_insertSorted :
    ∀ (m : EntryList) (kb : List Nat) (v : Value), ascKeys m = true →
      ascKeys (insertSorted (.bytes kb) v m) = true
  | .nil, kb, v, _ => by simp [insertSorted, ascKeys, isBytesV]
  | .cons k' v' es, kb, v, h => by
    obtain ⟨b', hb'⟩ := ascKeys_key_bytes k' v' es h
    rcases hc : compareValue (.bytes kb) k' with _ | _ | _
    · simp only [insertSorted, hc]
      rw [ascKeys_cons]
      refine ⟨h, ?_⟩
      rw [hb', headKeyE]
      show keyLtBytes (.bytes kb) (.bytes b') = true
      rw [keyLtBytes_bytes_iff]
      rw [hb', compareValue_bytes] at hc
      exact hc
    · simp only [insertSorted, hc]
      rw [ascKeys_cons] at h ⊢
      exact h
    · simp only [insertSorted, hc]
      rw [ascKeys_cons] at h ⊢
      refine ⟨ascKeys_insertSorted es kb v h.1, ?_⟩
      rcases insertSorted_headKey (.bytes kb) v es with hh | hh
      · rw [hh]
        exact compareValue_gt_keyLt ⟨b', hb'⟩ hc
      · rw [hh]
        exact h.2

theorem dictsOrderedE_insertSorted :
    ∀ (m : EntryList) (k v : Value), dictsOrderedE m = true →
      dictsOrdered k = true → dictsOrdered v = true →
      dictsOrderedE (insertSorted k v m) = true
  | .nil, k, v, _, hk, hv => by simp [insertSorted, dictsOrderedE, hk, hv]
  | .cons k' v' es, k, v, h, hk, hv => by
    have h3 : dictsOrdered k' = true ∧ dictsOrdered v' = true ∧
        dictsOrderedE es = true := by
      simp only [dictsOrderedE, Bool.and_eq_true] at h
      exact ⟨h.1.1, h.1.2, h.2⟩
    rcases hc : compareValue k k' with _ | _ | _ <;> simp only [insertSorted, hc]
    · simp [dictsOrderedE, hk, hv, h3.1, h3.2.1, h3.2.2]
    · simp [dictsOrderedE, h3.1, hv, h3.2.2]
    · simp [dictsOrderedE, h3.1, h3.2.1,
        dictsOrderedE_insertSorted es k v h3.2.2 hk hv]

/-! ## Shapes of the primitive readers -/

theorem read_integer_shape (input : List Nat) (v : Value) (r : List Nat)
    (h : read_integer input = DRes.ok v r) : ∃ n, v = .integer n := by
  rw [read_integer] at h
  split at h
  · cases h
  · split at h
    · cases h
    · split at h
      · cases h
        exact ⟨_, rfl⟩
      · cases h

theorem read_bytes_shape (input : List Nat) (v : Value) (r : List Nat)
    (h : read_bytes input = DRes.ok v r) : ∃ b, v = .bytes b := by
  rw [read_bytes] at h
  split at h
  · cases h
  · split at h
    · cases h
    · split at h
      · split at h
        · cases h
        · cases h
          exact ⟨_, rfl⟩
      · cases h

/-! ## Every decoded value has canonically ordered dictionaries -/

mutual
theorem read_anything_ordered :
    ∀ (fuel : Nat) (input : List Nat) (v : Value) (r : List Nat),
      read_anything fuel input = DRes.ok v r → dictsOrdered v = true
  | 0, input, v, r, h => by simp [read_anything] at h
  | fuel + 1, [], v, r, h => by simp [read_anything] at h
  | fuel + 1, b :: bs, v, r, h => by
    rw [read_anything] at h
    by_cases h1 : b = INTEGER_TOKEN
    · rw [if_pos h1] at h
      obtain ⟨n, rfl⟩ := read_integer_shape _ _ _ h
      rfl
    · rw [if_neg h1] at h
      by_cases h2 : b = LIST_TOKEN
      · rw [if_pos h2] at h
        cases hlb : read_list_body fuel bs with
        | ok vs rest =>
          simp only [hlb] at h
          cases h
          exact read_list_body_ordered fuel bs vs _ hlb
        | err e => simp only [hlb] at h; cases h
        | panic => simp only [hlb] at h; cases h
        | outOfFuel => simp only [hlb] at h; cases h
      · rw [if_neg h2] at h
        by_cases h3 : b = DICT_TOKEN
        · rw [if_pos h3] at h
          cases hdb : read_dict_body fuel bs .nil with
          | ok es rest =>
            simp only [hdb] at h
            cases h
            have := read_dict_body_ordered fuel bs .nil es _ hdb rfl rfl
            simp [dictsOrdered, this.1, this.2]
          | err e => simp only [hdb] at h; cases h
          | panic => simp only [hdb] at h; cases h
          | outOfFuel => simp only [hdb] at h; cases h
        · rw [if_neg h3] at h
          by_cases h4 : isDigit b = true
          · rw [if_pos h4] at h
            obtain ⟨bb, rfl⟩ := read_bytes_shape _ _ _ h
            rfl
          · rw [if_neg h4] at h
            cases h
theorem read_list_body_ordered :
    ∀ (fuel : Nat) (input : List Nat) (vs : ValueList) (r : List Nat),
      read_list_body fuel input = DResL.ok vs r → dictsOrderedL vs = true
  | 0, input, vs, r, h => by simp [read_list_body] at h
  | fuel + 1, input, vs, r, h => by
    rw [read_list_body] at h
    split at h
    · cases h
      rfl
    · cases hra : read_anything fuel input with
      | ok v rest =>
        simp only [hra] at h
        cases hlb : read_list_body fuel rest with
        | ok vs2 rest2 =>
          simp only [hlb] at h
          cases h
          simp [dictsOrderedL, read_anything_ordered fuel input v rest hra,
            read_list_body_ordered fuel rest vs2 _ hlb]
        | err e => simp only [hlb] at h; cases h
        | panic => simp only [hlb] at h; cases h
        | outOfFuel => simp only [hlb] at h; cases h
      | err e => simp only [hra] at h; cases h
      | panic => simp only [hra] at h; cases h
      | outOfFuel => simp only [hra] at h; cases h
theorem read_dict_body_ordered :
    ∀ (fuel : Nat) (input : List Nat) (m es : EntryList) (r : List Nat),
      read_dict_body fuel input m = DResE.ok es r →
      ascKeys m = true → dictsOrderedE m = true →
      ascKeys es = true ∧ dictsOrderedE es = true
  | 0, input, m, es, r, h, _, _ => by simp [read_dict_body] at h
  | fuel + 1, input, m, es, r, h, hm1, hm2 => by
    rw [read_dict_body] at h
    split at h
    · cases h
      exact ⟨hm1, hm2⟩
    · cases hk : read_anything fuel input with
      | ok key rest =>
        simp only [hk] at h
        cases hv : read_anything fuel rest with
        | ok value rest2 =>
          simp only [hv] at h
          cases key with
          | bytes kb =>
            exact read_dict_body_ordered fuel rest2 (insertSorted (.bytes kb) value m)
              es r h (ascKeys_insertSorted m kb value hm1)
              (dictsOrderedE_insertSorted m (.bytes kb) value hm2 rfl
                (read_anything_ordered fuel rest value rest2 hv))
          | integer i => simp at h
          | list l => simp at h
          | dict d => simp at h
        | err e => simp only [hv] at h; cases h
        | panic => simp only [hv] at h; cases h
        | outOfFuel => simp only [hv] at h; cases h
      | err e => simp only [hk] at h; cases h
      | panic => simp only [hk] at h; cases h
      | outOfFuel => simp only [hk] at h; cases h
end

/-! ## Ordered dictionaries have Bytes keys everywhere -/

mutual
theorem dictsOrdered_keysBytes : ∀ v : Value, dictsOrdered v = true →
    keysBytes v = true
  | .bytes _, _ => rfl
  | .integer _, _ => rfl
  | .list l, h => by
    rw [keysBytes]
    exact dictsOrderedL_keysBytesL l h
  | .dict es, h => by
    rw [keysBytes]
    rw [dictsOrdered, Bool.and_eq_true] at h
    exact dictsOrderedE_keysBytesE es h.1 h.2
theorem dictsOrderedL_keysBytesL : ∀ l : ValueList, dictsOrderedL l = true →
    keysBytesL l = true
  | .nil, _ => rfl
  | .cons v vs, h => by
    rw [dictsOrderedL, Bool.and_eq_true] at h
    rw [keysBytesL, Bool.and_eq_true]
    exact ⟨dictsOrdered_keysBytes v h.1, dictsOrderedL_keysBytesL vs h.2⟩
theorem dictsOrderedE_keysBytesE : ∀ es : EntryList, ascKeys es = true →
    dictsOrderedE es = true → keysBytesE es = true
  | .nil, _, _ => rfl
  | .cons k v es, ha, ho => by
    obtain ⟨b, rfl⟩ := ascKeys_key_bytes k v es ha
    simp only [dictsOrderedE, Bool.and_eq_true] at ho
    rw [keysBytesE]
    simp only [Bool.and_eq_true]
    exact ⟨⟨⟨rfl, dictsOrdered_keysBytes _ ho.1.1⟩, dictsOrdered_keysBytes v ho.1.2⟩,
      dictsOrderedE_keysBytesE es (ascKeys_tail _ _ es ha) ho.2⟩
end

/-! ## Lookup against insertSorted / insertAllE (duplicate keys) -/

theorem compareValue_bytes_eq_iff (a : List Nat) (k : Value) :
    compareValue (.bytes a) k = .eq ↔ k = .bytes a := by
  cases k with
  | bytes b =>
    rw [compareValue_bytes, compareBytes_eq_iff]
    constructor
    · intro h
      rw [h]
    · intro h
      injection h with h2
      exact h2.symm
  | integer i => simp [compareValue]
  | list l => simp [compareValue]
  | dict d => simp [compareValue]

theorem lookupE_insertSorted_self :
    ∀ (m : EntryList) (kb : List Nat) (v : Value),
      lookupE (insertSorted (.bytes kb) v m) kb = some v
  | .nil, kb, v => by
    simp [insertSorted, lookupE, compareValue_bytes, compareBytes_self]
  | .cons k' v' es, kb, v => by
    rcases hc : compareValue (.bytes kb) k' with _ | _ | _
    · simp only [insertSorted, hc]
      simp [lookupE, compareValue_bytes, compareBytes_self]
    · simp only [insertSorted, hc]
      simp [lookupE, hc]
    · simp only [insertSorted, hc]
      simp [lookupE, hc, lookupE_insertSorted_self es kb v]

theorem lookupE_insertSorted_other :
    ∀ (m : EntryList) (kb kb' : List Nat) (v : Value), kb' ≠ kb →
      lookupE (insertSorted (.bytes kb) v m) kb' = lookupE m kb'
  | .nil, kb, kb', v, hne => by
    have hcc : compareValue (.bytes kb') (.bytes kb) ≠ .eq := by
      rw [compareValue_bytes]
      intro hx
      exact hne ((compareBytes_eq_iff kb' kb).mp hx)
    rcases hx : compareValue (.bytes kb') (.bytes kb) with _ | _ | _ <;>
      simp [insertSorted, lookupE, hx] <;> exact absurd hx hcc
  | .cons k' v' es, kb, kb', v, hne => by
    have hcc : compareValue (.bytes kb') (.bytes kb) ≠ .eq := by
      rw [compareValue_bytes]
      intro hx
      exact hne ((compareBytes_eq_iff kb' kb).mp hx)
    rcases hc : compareValue (.bytes kb) k' with _ | _ | _
    · simp only [insertSorted, hc]
      rcases hx : compareValue (.bytes kb') (.bytes kb) with _ | _ | _ <;>
        simp [lookupE, hx] <;> exact absurd hx hcc
    · have hk' : k' = .bytes kb := (compareValue_bytes_eq_iff kb k').mp hc
      subst hk'
      simp only [insertSorted, hc]
      rcases hx : compareValue (.bytes kb') (.bytes kb) with _ | _ | _ <;>
        simp [lookupE, hx] <;> exact absurd hx hcc
    · simp only [insertSorted, hc]
      rcases hx : compareValue (.bytes kb') k' with _ | _ | _ <;>
        simp [lookupE, hx, lookupE_insertSorted_other es kb kb' v hne]

theorem lookupE_insertAllE :
    ∀ (es m : EntryList) (kb : List Nat), keysBytesE es = true →
      lookupE (insertAllE m es) kb =
        (match lastValE es kb with
         | some w => some w
         | none => lookupE m kb)
  | .nil, m, kb, _ => by simp [insertAllE, lastValE]
  | .cons k v es, m, kb, hv => by
    simp only [keysBytesE, Bool.and_eq_true] at hv
    obtain ⟨kb0, rfl⟩ : ∃ kb0, k = .bytes kb0 := by
      have := hv.1.1.1
      cases k with
      | bytes b => exact ⟨b, rfl⟩
      | integer i => simp [isBytesV] at this
      | list l => simp [isBytesV] at this
      | dict d => simp [isBytesV] at this
    rw [insertAllE, lookupE_insertAllE es (insertSorted (.bytes kb0) v m) kb hv.2]
    rw [lastValE]
    rcases hl : lastValE es kb with _ | w
    · by_cases he : kb = kb0
      · subst he
        simp only [compareValue_bytes, compareBytes_self]
        exact lookupE_insertSorted_self m kb v
      · have hcc : compareValue (.bytes kb) (.bytes kb0) ≠ .eq := by
          rw [compareValue_bytes]
          intro hx
          exact he ((compareBytes_eq_iff kb kb0).mp hx)
        rcases hx : compareValue (.bytes kb) (.bytes kb0) with _ | _ | _
        · exact lookupE_insertSorted_other m kb0 kb v he
        · exact absurd hx hcc
        · exact lookupE_insertSorted_other m kb0 kb v he
    · rfl

theorem lastValE_isSome_of_count :
    ∀ (es : EntryList) (kb : List Nat), 1 ≤ countKeyE es kb →
      ∃ w, lastValE es kb = some w
  | .nil, kb, h => by
    rw [show countKeyE .nil kb = 0 from rfl] at h
    omega
  | .cons k v es, kb, h => by
    rw [countKeyE] at h
    rcases hc : compareValue (.bytes kb) k with _ | _ | _
    · rw [hc] at h
      obtain ⟨w, hw⟩ := lastValE_isSome_of_count es kb h
      rw [lastValE, hw]
      exact ⟨w, rfl⟩
    · rcases hl : lastValE es kb with _ | w
      · refine ⟨v, ?_⟩
        rw [lastValE, hl, hc]
      · refine ⟨w, ?_⟩
        rw [lastValE, hl]
    · rw [hc] at h
      obtain ⟨w, hw⟩ := lastValE_isSome_of_count es kb h
      rw [lastValE, hw]
      exact ⟨w, rfl⟩

/-! ## Integer overflow and the invalid-key error path -/

theorem allDigits_mem {l : List Nat} (h : allDigits l = true) :
    ∀ x ∈ l, 48 ≤ x ∧ x ≤ 57 := by
  intro x hx
  rw [allDigits, List.all_eq_true] at h
  have hh := h x hx
  rw [isDigit, Bool.and_eq_true, decide_eq_true_eq, decide_eq_true_eq] at hh
  exact hh

theorem read_integer_overflow_pos (ds : List Nat) (hd : allDigits ds = true)
    (hgt : 2 ^ 63 - 1 < digitsToVal ds) :
    read_integer (ds ++ [END_TOKEN]) = DRes.err (.decoder .parseIntegerFailed) := by
  have hds : ds ≠ [] := by
    intro hh
    subst hh
    rw [show digitsToVal [] = 0 from rfl] at hgt
    omega
  have hmem : ∀ x ∈ ds, x ≠ END_TOKEN := by
    intro x hx
    have := allDigits_mem hd x hx
    rw [END_TOKEN]
    omega
  obtain ⟨d, t, rfl⟩ := List.exists_cons_of_ne_nil hds
  have hd0 := allDigits_mem hd d (List.mem_cons_self d t)
  rw [read_integer]
  rw [show (d :: t) ++ [END_TOKEN] = (d :: t) ++ END_TOKEN :: [] from rfl,
    readUntil_append END_TOKEN (d :: t) [] hmem]
  simp only [List.getLast?_concat, List.dropLast_concat]
  rw [if_neg (by decide)]
  rw [parseI64]
  have h45 : ¬((d :: t).head? = some 45) := by simp; omega
  have h43 : ¬((d :: t).head? = some 43) := by simp; omega
  rw [if_neg h45, if_neg h43]
  rw [if_neg (fun hcon => absurd hcon.2.2 (by omega))]

theorem read_integer_overflow_neg (ds : List Nat) (hd : allDigits ds = true)
    (hgt : 2 ^ 63 < digitsToVal ds) :
    read_integer (45 :: ds ++ [END_TOKEN]) =
      DRes.err (.decoder .parseIntegerFailed) := by
  have hmem : ∀ x ∈ 45 :: ds, x ≠ END_TOKEN := by
    intro x hx
    rcases List.mem_cons.mp hx with hh | hh
    · subst hh
      rw [END_TOKEN]
      omega
    · have := allDigits_mem hd x hh
      rw [END_TOKEN]
      omega
  rw [read_integer]
  rw [show (45 :: ds) ++ [END_TOKEN] = (45 :: ds) ++ END_TOKEN :: [] from rfl,
    readUntil_append END_TOKEN (45 :: ds) [] hmem]
  simp only [List.getLast?_concat, List.dropLast_concat]
  rw [if_neg (by decide)]
  rw [parseI64]
  have h45 : (45 :: ds).head? = some 45 := rfl
  rw [if_pos h45]
  rw [if_neg (fun hcon => absurd hcon.2.2 (by simp only [List.tail_cons]; omega))]

theorem read_anything_end_token (fuel : Nat) (t : List Nat) (v : Value)
    (r : List Nat) : ¬(read_anything fuel (END_TOKEN :: t) = DRes.ok v r) := by
  intro h
  cases fuel with
  | zero => simp [read_anything] at h
  | succ f =>
    rw [read_anything] at h
    rw [if_neg (by decide), if_neg (by decide), if_neg (by decide),
      if_neg (by decide)] at h
    cases h

theorem read_dict_body_invalid_key (fuel : Nat) (input : List Nat)
    (m : EntryList) (key : Value) (r1 : List Nat) (w : Value) (r2 : List Nat)
    (hk : read_anything fuel input = DRes.ok key r1)
    (hkb : isBytesV key = false)
    (hw : read_anything fuel r1 = DRes.ok w r2) :
    read_dict_body (fuel + 1) input m = DResE.err (.decoder .dictKeyNotBytes) := by
  have hne : ¬(input.head? = some END_TOKEN) := by
    intro hh
    cases input with
    | nil => simp at hh
    | cons b bs =>
      simp at hh
      subst hh
      exact read_anything_end_token fuel bs key r1 hk
  rw [read_dict_body, if_neg hne]
  simp only [hk, hw]
  cases key with
  | bytes kb => simp [isBytesV] at hkb
  | integer i => rfl
  | list l => rfl
  | dict d => rfl

/- Valid values have Bytes keys everywhere (validity of a dict includes
its key order, whose chain forces every key to be Bytes). -/
mutual
theorem validV_keysBytes : ∀ v : Value, validV v = true → keysBytes v = true
  | .bytes _, _ => rfl
  | .integer _, _ => rfl
  | .list l, h => by
    rw [keysBytes]
    exact validVL_keysBytesL l h
  | .dict es, h => by
    rw [keysBytes]
    rw [validV, Bool.and_eq_true] at h
    exact validEL_keysBytesE es h.1
theorem validVL_keysBytesL : ∀ l : ValueList, validVL l = true →
    keysBytesL l = true
  | .nil, _ => rfl
  | .cons v vs, h => by
    rw [validVL, Bool.and_eq_true] at h
    rw [keysBytesL, Bool.and_eq_true]
    exact ⟨validV_keysBytes v h.1, validVL_keysBytesL vs h.2⟩
theorem validEL_keysBytesE : ∀ es : EntryList, validEL es = true →
    keysBytesE es = true
  | .nil, _ => rfl
  | .cons k v es, h => by
    simp only [validEL, Bool.and_eq_true] at h
    rw [keysBytesE]
    simp only [Bool.and_eq_true]
    exact ⟨⟨⟨h.1.1.1, validV_keysBytes k h.1.1.2⟩, validV_keysBytes v h.1.2⟩,
      validEL_keysBytesE es h.2⟩
end

/-! ## Claim theorems -/

/-- C1: for every Value satisfying the data-model invariants (dictionary
keys unique Bytes values in ascending byte-wise order, integers within the
signed 64-bit range, byte-string lengths within usize), decoding the byte
sequence produced by encoding the value yields the value back, with the
whole stream consumed: decode (encode v) = Ok v. -/
theorem claim_c1_roundtrip (v : Value) (hv : validV v = true) :
    Value.decode (Value.encode v) = DRes.ok v [] := by
  rw [Value.encode_eq, Value.decode]
  have h := dec_enc v [] (2 * (encBytes v).length + 1) hv (by omega)
  rw [List.append_nil] at h
  exact h

theorem claim_c1_roundtrip_witness :
    validV (.dict (.cons (.bytes [97]) (.integer (-12))
      (.cons (.bytes [98]) (.list (.cons (.bytes [120])
        (.cons (.dict .nil) .nil))) .nil))) = true ∧
    Value.decode (Value.encode (.dict (.cons (.bytes [97]) (.integer (-12))
      (.cons (.bytes [98]) (.list (.cons (.bytes [120])
        (.cons (.dict .nil) .nil))) .nil)))) =
      DRes.ok (.dict (.cons (.bytes [97]) (.integer (-12))
        (.cons (.bytes [98]) (.list (.cons (.bytes [120])
          (.cons (.dict .nil) .nil))) .nil))) [] :=
  ⟨by decide, claim_c1_roundtrip _ (by decide)⟩

/-- C2: evaluation of the decoder at the claim's failing input: decoding
the single byte 'i' (integer marker at end of stream) panics — the slice
`int_str[..int_str.len() - 1]` underflows on the empty interior — instead
of returning Ok or Err as the claim requires. -/
theorem claim_c2_decode_panics_on_i : Value.decode [105] = DRes.panic := by
  decide

/-- C3: evaluation of the decoder at the claim's failing inputs: decoding
"i03e" returns Ok(Integer 3) and decoding "i-0e" returns Ok(Integer 0) —
`str::parse::<i64>` silently accepts leading zeros and "-0" — instead of
rejecting the redundant formats as the claim requires. -/
theorem claim_c3_redundant_integers_accepted :
    Value.decode [105, 48, 51, 101] = DRes.ok (.integer 3) [] ∧
    Value.decode [105, 45, 48, 101] = DRes.ok (.integer 0) [] := by
  decide

/-- C4: evaluation of the decoder at the claim's failing input: decoding
"i12" (stream ends before the terminating 'e') returns Ok(Integer 1) —
`read_until` returns everything up to EOF and the final digit '2' is
sliced off as if it were the terminator — instead of failing with an
UnexpectedEof error as the claim requires. -/
theorem claim_c4_truncated_integer_ok :
    Value.decode [105, 49, 50] = DRes.ok (.integer 1) [] := by
  decide

/-- C5 counterexample: decoding "5:abc" does fail, but the error is
`DecodeError::IO` (the reader's UnexpectedEof from the failed
`read_exact`), not a decoder-side format error, contradicting the claim
that the failure is a Truncated format error never conflated with I/O
errors. -/
theorem claim_c5_counterexample :
    Value.decode [53, 58, 97, 98, 99] = DRes.err (.io .unexpectedEof) ∧
    isDecoderError (Value.decode [53, 58, 97, 98, 99]) = false := by
  decide

/-- C5 (amended): when a byte string declares a length exceeding the bytes
available in the stream, decode fails and returns no value, but the
failure is surfaced as `DecodeError::IO` wrapping the reader's
UnexpectedEof from the failed `read_exact` — the code has no Truncated
format-error kind and routes truncation into the I/O error family. -/
theorem claim_c5_amended (n : Nat) (bs : List Nat) (h1 : n ≤ 2 ^ 64 - 1)
    (h2 : bs.length < n) :
    Value.decode (natDigits n ++ DELIM_TOKEN :: bs) =
      DRes.err (.io .unexpectedEof) := by
  obtain ⟨d, t, hdt, hd1, hd2⟩ := natDigits_head n
  rw [Value.decode]
  have hin : natDigits n ++ DELIM_TOKEN :: bs = d :: (t ++ DELIM_TOKEN :: bs) := by
    rw [hdt]
    rfl
  rw [hin]
  simp only [read_anything]
  rw [if_neg (by simp [INTEGER_TOKEN]; omega)]
  rw [if_neg (by simp [LIST_TOKEN]; omega)]
  rw [if_neg (by simp [DICT_TOKEN]; omega)]
  rw [if_pos (show isDigit d = true by simp [isDigit]; omega)]
  rw [← hin]
  exact read_bytes_trunc n bs h1 h2

theorem claim_c5_amended_witness :
    (5 : Nat) ≤ 2 ^ 64 - 1 ∧ ([97, 98, 99] : List Nat).length < 5 ∧
    Value.decode (natDigits 5 ++ DELIM_TOKEN :: [97, 98, 99]) =
      DRes.err (.io .unexpectedEof) :=
  ⟨by decide, by decide, claim_c5_amended 5 [97, 98, 99] (by decide) (by decide)⟩

/-- C6: every dictionary inside a value returned by decode iterates its
keys in strictly ascending byte-wise lexicographic order (all keys are
Bytes, adjacent keys strictly increase), regardless of the key order in
the input stream. -/
theorem claim_c6_dict_keys_ascending (input : List Nat) (v : Value)
    (r : List Nat) (h : Value.decode input = DRes.ok v r) :
    dictsOrdered v = true :=
  read_anything_ordered _ input v r h

theorem claim_c6_witness :
    Value.decode [100, 49, 58, 98, 105, 49, 101, 49, 58, 97, 105, 50, 101, 101] =
      DRes.ok (.dict (.cons (.bytes [97]) (.integer 2)
        (.cons (.bytes [98]) (.integer 1) .nil))) [] ∧
    dictsOrdered (.dict (.cons (.bytes [97]) (.integer 2)
      (.cons (.bytes [98]) (.integer 1) .nil))) = true :=
  ⟨by decide, claim_c6_dict_keys_ascending
    [100, 49, 58, 98, 105, 49, 101, 49, 58, 97, 105, 50, 101, 101]
    (.dict (.cons (.bytes [97]) (.integer 2)
      (.cons (.bytes [98]) (.integer 1) .nil))) [] (by decide)⟩

/-- C7 counterexample: the claim as stated — a non-Bytes decoded key term
makes decode fail with the InvalidKey error — is false of the code.
Decoding "di1ee": the dict loop's key term decodes to Integer 1 (not
Bytes), but the code decodes the following value term before checking the
key, and that value decode dispatches on the 'e' and fails first, so the
whole decode fails with the "Unknown token" error, not with
"Dict key must be a byte string". -/
theorem claim_c7_counterexample :
    read_anything 10 [105, 49, 101, 101] = DRes.ok (.integer 1) [101] ∧
    isBytesV (.integer 1) = false ∧
    Value.decode [100, 105, 49, 101, 101] = DRes.err (.decoder .unknownToken) ∧
    Value.decode [100, 105, 49, 101, 101] ≠
      DRes.err (.decoder .dictKeyNotBytes) := by
  decide

/-- C7 (amended): dict entries are inserted only for Bytes keys — every
value decode returns has only Bytes keys in all its dictionaries — and in
the dict loop, when a decoded key term is not the Bytes variant AND the
following value term also decodes successfully, the decoder fails with the
"Dict key must be a byte string" error, returning no value (the source
decodes the value term before the key check, so a failure in the value
term surfaces its own error instead). -/
theorem claim_c7_invalid_key :
    (∀ (input : List Nat) (v : Value) (r : List Nat),
      Value.decode input = DRes.ok v r → keysBytes v = true) ∧
    (∀ (fuel : Nat) (input : List Nat) (m : EntryList) (key : Value)
      (r1 : List Nat) (w : Value) (r2 : List Nat),
      read_anything fuel input = DRes.ok key r1 → isBytesV key = false →
      read_anything fuel r1 = DRes.ok w r2 →
      read_dict_body (fuel + 1) input m =
        DResE.err (.decoder .dictKeyNotBytes)) :=
  ⟨fun input v r h => dictsOrdered_keysBytes v (read_anything_ordered _ input v r h),
   fun fuel input m key r1 w r2 hk hkb hw =>
     read_dict_body_invalid_key fuel input m key r1 w r2 hk hkb hw⟩

theorem claim_c7_witness :
    read_anything 2 [105, 49, 101, 105, 50, 101, 101] =
      DRes.ok (.integer 1) [105, 50, 101, 101] ∧
    isBytesV (.integer 1) = false ∧
    read_anything 2 [105, 50, 101, 101] = DRes.ok (.integer 2) [101] ∧
    read_dict_body 3 [105, 49, 101, 105, 50, 101, 101] .nil =
      DResE.err (.decoder .dictKeyNotBytes) ∧
    keysBytes (.integer 5) = true :=
  ⟨by decide, by decide, by decide,
   claim_c7_invalid_key.2 2 [105, 49, 101, 105, 50, 101, 101] .nil
     (.integer 1) [105, 50, 101, 101] (.integer 2) [101]
     (by decide) (by decide) (by decide),
   claim_c7_invalid_key.1 [105, 53, 101] (.integer 5) [] (by decide)⟩

/-- C8: encode never fails for format reasons: against any sink, the only
error `write_anything` can return is the sink's own I/O error value,
surfaced unchanged; and against a sink whose writes all succeed it
returns Ok, having appended exactly the encoding of the value. -/
theorem claim_c8_encode_errors (v : Value) (s : Sink) :
    (∀ e, write_anything v s = .error e → e = s.errCode) ∧
    (s.failAfter = none →
      write_anything v s =
        .ok { buf := s.buf ++ encBytes v, failAfter := none,
              errCode := s.errCode }) := by
  constructor
  · intro e he
    have h := write_anything_code v s
    rw [he] at h
    exact h
  · intro h
    exact write_anything_ok v s h

theorem claim_c8_witness :
    write_anything (.integer 5) { buf := [], failAfter := none, errCode := 7 } =
      .ok { buf := [105, 53, 101], failAfter := none, errCode := 7 } ∧
    (7 : Nat) =
      ({ buf := [], failAfter := some 0, errCode := 7 } : Sink).errCode :=
  ⟨(claim_c8_encode_errors (.integer 5)
      { buf := [], failAfter := none, errCode := 7 }).2 rfl,
   (claim_c8_encode_errors (.integer 5)
      { buf := [], failAfter := some 0, errCode := 7 }).1 7 rfl⟩

/-- C9: decoding an integer whose decimal value lies outside the signed
64-bit range fails with the decoder-side "parse integer failed" format
error rather than truncating or wrapping: a digit string above 2^63 - 1
fails positively, and with a '-' sign above 2^63 fails negatively. -/
theorem claim_c9_integer_overflow (ds : List Nat) (hd : allDigits ds = true) :
    (2 ^ 63 - 1 < digitsToVal ds →
      Value.decode (INTEGER_TOKEN :: (ds ++ [END_TOKEN])) =
        DRes.err (.decoder .parseIntegerFailed)) ∧
    (2 ^ 63 < digitsToVal ds →
      Value.decode (INTEGER_TOKEN :: (45 :: ds ++ [END_TOKEN])) =
        DRes.err (.decoder .parseIntegerFailed)) := by
  constructor
  · intro hgt
    rw [Value.decode]
    simp only [read_anything]
    rw [if_pos trivial]
    exact read_integer_overflow_pos ds hd hgt
  · intro hgt
    rw [Value.decode]
    simp only [read_anything]
    rw [if_pos trivial]
    exact read_integer_overflow_neg ds hd hgt

theorem claim_c9_witness :
    allDigits [57, 50, 50, 51, 51, 55, 50, 48, 51, 54, 56, 53, 52, 55, 55, 53, 56, 48, 56] = true ∧
    2 ^ 63 - 1 <
      digitsToVal [57, 50, 50, 51, 51, 55, 50, 48, 51, 54, 56, 53, 52, 55, 55, 53, 56, 48, 56] ∧
    Value.decode (INTEGER_TOKEN ::
      ([57, 50, 50, 51, 51, 55, 50, 48, 51, 54, 56, 53, 52, 55, 55, 53, 56, 48, 56] ++ [END_TOKEN])) =
      DRes.err (.decoder .parseIntegerFailed) ∧
    2 ^ 63 <
      digitsToVal [57, 50, 50, 51, 51, 55, 50, 48, 51, 54, 56, 53, 52, 55, 55, 53, 56, 48, 57] ∧
    Value.decode (INTEGER_TOKEN ::
      (45 :: [57, 50, 50, 51, 51, 55, 50, 48, 51, 54, 56, 53, 52, 55, 55, 53, 56, 48, 57] ++ [END_TOKEN])) =
      DRes.err (.decoder .parseIntegerFailed) :=
  ⟨by decide, by decide,
   (claim_c9_integer_overflow
     [57, 50, 50, 51, 51, 55, 50, 48, 51, 54, 56, 53, 52, 55, 55, 53, 56, 48, 56]
     (by decide)).1 (by decide),
   by decide,
   (claim_c9_integer_overflow
     [57, 50, 50, 51, 51, 55, 50, 48, 51, 54, 56, 53, 52, 55, 55, 53, 56, 48, 57]
     (by decide)).2 (by decide)⟩

/-- C10: decoding a dictionary stream whose entry sequence binds the same
Bytes key more than once succeeds without error; the resulting map is the
left fold of BTreeMap::insert over the entries in stream order, and the
repeated key maps to the value of its last occurrence in the input. -/
theorem claim_c10_duplicate_keys (es : EntryList) (kb : List Nat)
    (hv : validEL es = true) (hdup : 2 ≤ countKeyE es kb) :
    Value.decode (DICT_TOKEN :: (encEL es ++ [END_TOKEN])) =
      DRes.ok (.dict (insertAllE .nil es)) [] ∧
    ∃ w, lastValE es kb = some w ∧ lookupE (insertAllE .nil es) kb = some w := by
  constructor
  · rw [Value.decode]
    have hL : (DICT_TOKEN :: (encEL es ++ [END_TOKEN])).length
        = (encEL es).length + 2 := by simp
    simp only [read_anything]
    rw [if_neg (by decide), if_neg (by decide), if_pos trivial]
    rw [dec_encE es [] (2 * (DICT_TOKEN :: (encEL es ++ [END_TOKEN])).length)
      .nil hv (by omega)]
  · obtain ⟨w, hw⟩ := lastValE_isSome_of_count es kb (by omega)
    refine ⟨w, hw, ?_⟩
    have hkb : keysBytesE es = true := validEL_keysBytesE es hv
    rw [lookupE_insertAllE es .nil kb hkb, hw]

theorem claim_c10_witness :
    validEL (.cons (.bytes [97]) (.integer 1)
      (.cons (.bytes [97]) (.integer 2) .nil)) = true ∧
    2 ≤ countKeyE (.cons (.bytes [97]) (.integer 1)
      (.cons (.bytes [97]) (.integer 2) .nil)) [97] ∧
    Value.decode (DICT_TOKEN :: (encEL (.cons (.bytes [97]) (.integer 1)
      (.cons (.bytes [97]) (.integer 2) .nil)) ++ [END_TOKEN])) =
      DRes.ok (.dict (insertAllE .nil (.cons (.bytes [97]) (.integer 1)
        (.cons (.bytes [97]) (.integer 2) .nil)))) [] ∧
    lastValE (.cons (.bytes [97]) (.integer 1)
      (.cons (.bytes [97]) (.integer 2) .nil)) [97] = some (.integer 2) ∧
    lookupE (insertAllE .nil (.cons (.bytes [97]) (.integer 1)
      (.cons (.bytes [97]) (.integer 2) .nil))) [97] = some (.integer 2) :=
  ⟨by decide, by decide,
   (claim_c10_duplicate_keys (.cons (.bytes [97]) (.integer 1)
     (.cons (.bytes [97]) (.integer 2) .nil)) [97] (by decide) (by decide)).1,
   by decide, by decide⟩

